import Mathlib

/-!
Shallow embedding of the `RateLimiter` class from
`src/front-end/server-driven-ui/src/utils/rate-limiter.ts`.

The TypeScript class keeps a `Map<string, RateLimitRecord>` together with the
two configuration numbers `windowMs` and `maxRequests`.  The map is modelled
as an association list with unique keys (JavaScript `Map` semantics:
`set` replaces an existing binding in place, otherwise appends; `delete`
removes the binding; iteration order is insertion order).  `Date.now()` is
modelled by passing the current time `now : Int` explicitly to the operations
that read the clock (`isRateLimited`, `cleanup`).  All JavaScript numbers that
the class manipulates are integers in the exercised range, so they are
modelled as `Int`.
-/

namespace RateLimiterModel

/-- Per-identifier record: `interface RateLimitRecord { count; resetTime }`. -/
structure RateLimitRecord where
  count : Int
  resetTime : Int
deriving DecidableEq

/-- The backing store of the limiter: `Map<string, RateLimitRecord>` as an
association list (first binding for a key wins, keys kept unique by the
operations). -/
abbrev Store := List (String × RateLimitRecord)

/-- `Map.get`: the first binding for `key`, if any. -/
def storeGet : Store → String → Option RateLimitRecord
  | [], _ => none
  | (k, r) :: rest, key => if k = key then some r else storeGet rest key

/-- `Map.set`: replace the binding for `key` in place, or append a new one. -/
def storeSet : Store → String → RateLimitRecord → Store
  | [], key, r => [(key, r)]
  | (k, r') :: rest, key, r =>
      if k = key then (key, r) :: rest else (k, r') :: storeSet rest key r

/-- `Map.delete`: remove the binding(s) for `key`. -/
def storeDelete : Store → String → Store
  | [], _ => []
  | (k, r) :: rest, key =>
      if k = key then storeDelete rest key else (k, r) :: storeDelete rest key

/-- The `cleanup` sweep over the entries: delete every record with
`now > record.resetTime`, i.e. keep exactly those with `resetTime ≥ now`. -/
def sweep (now : Int) (s : Store) : Store :=
  s.filter (fun kr => !decide (kr.2.resetTime < now))

/-- The `RateLimiter` class state: the store plus the construction-time
configuration `windowMs` and `maxRequests`. -/
structure RateLimiter where
  store : Store
  windowMs : Int
  maxRequests : Int
deriving DecidableEq

/-- `new RateLimiter(windowMs = 60000, maxRequests = 100)`. -/
def mkRateLimiter (windowMs : Int := 60000) (maxRequests : Int := 100) :
    RateLimiter :=
  { store := [], windowMs := windowMs, maxRequests := maxRequests }

/-- `cleanup()`: removes every record whose window has fully elapsed at
time `now`. -/
def cleanup (rl : RateLimiter) (now : Int) : RateLimiter :=
  { rl with store := sweep now rl.store }

/-- `isRateLimited(identifier)`, with the current time passed explicitly.
Returns the decision together with the successor state.  Mirrors the source
line by line: run the cleanup sweep, look the identifier up, write a fresh
`{count: 1, resetTime: now + windowMs}` when the record is missing or its
window has elapsed (`now > resetTime`), deny without mutation when
`count >= maxRequests`, otherwise increment `count`. -/
def isRateLimited (rl : RateLimiter) (now : Int) (identifier : String) :
    Bool × RateLimiter :=
  let rl1 := cleanup rl now
  match storeGet rl1.store identifier with
  | none =>
      (false, { rl1 with
        store := storeSet rl1.store identifier ⟨1, now + rl1.windowMs⟩ })
  | some record =>
      if record.resetTime < now then
        (false, { rl1 with
          store := storeSet rl1.store identifier ⟨1, now + rl1.windowMs⟩ })
      else if rl1.maxRequests ≤ record.count then
        (true, rl1)
      else
        (false, { rl1 with
          store := storeSet rl1.store identifier
            ⟨record.count + 1, record.resetTime⟩ })

/-- Variant of `isRateLimited` with the opening `this.cleanup()` call removed,
used to state that the sweep never changes the admit/deny outcome. -/
def isRateLimitedNoCleanup (rl : RateLimiter) (now : Int)
    (identifier : String) : Bool × RateLimiter :=
  match storeGet rl.store identifier with
  | none =>
      (false, { rl with
        store := storeSet rl.store identifier ⟨1, now + rl.windowMs⟩ })
  | some record =>
      if record.resetTime < now then
        (false, { rl with
          store := storeSet rl.store identifier ⟨1, now + rl.windowMs⟩ })
      else if rl.maxRequests ≤ record.count then
        (true, rl)
      else
        (false, { rl with
          store := storeSet rl.store identifier
            ⟨record.count + 1, record.resetTime⟩ })

/-- `getCount(identifier)`: the stored `count`, or `0` when absent.  A pure
read: it takes the state and returns only a number. -/
def getCount (rl : RateLimiter) (identifier : String) : Int :=
  match storeGet rl.store identifier with
  | some record => record.count
  | none => 0

/-- `reset(identifier)`: delete the identifier's record. -/
def reset (rl : RateLimiter) (identifier : String) : RateLimiter :=
  { rl with store := storeDelete rl.store identifier }

/-- `clear()`: delete all records. -/
def clear (rl : RateLimiter) : RateLimiter :=
  { rl with store := [] }

/-- Run a list of `isRateLimited` calls for one identifier, one call per
listed time; returns the list of decisions and the final state. -/
def runCalls (rl : RateLimiter) (identifier : String) :
    List Int → List Bool × RateLimiter
  | [] => ([], rl)
  | t :: ts =>
      let step := isRateLimited rl t identifier
      let rest := runCalls step.2 identifier ts
      (step.1 :: rest.1, rest.2)

/-- State after a list of `isRateLimited` calls for one identifier. -/
def afterCalls (rl : RateLimiter) (identifier : String) (ts : List Int) :
    RateLimiter :=
  (runCalls rl identifier ts).2

/-- One public operation of the limiter, with the observed clock value
attached to the operations that read it. -/
inductive Op where
  | limited (now : Int) (id : String)
  | countOf (id : String)
  | resetOp (id : String)
  | clearOp
  | cleanupOp (now : Int)
deriving DecidableEq

/-- Effect of one operation on the state (`getCount` does not mutate). -/
def applyOp (rl : RateLimiter) : Op → RateLimiter
  | .limited now id => (isRateLimited rl now id).2
  | .countOf _ => rl
  | .resetOp id => reset rl id
  | .clearOp => clear rl
  | .cleanupOp now => cleanup rl now

/-- State after a sequence of public operations. -/
def runOps (rl : RateLimiter) : List Op → RateLimiter
  | [] => rl
  | op :: ops => runOps (applyOp rl op) ops

/-! ### Lemmas about the store operations -/

theorem storeGet_storeSet_self (s : Store) (k : String) (r : RateLimitRecord) :
    storeGet (storeSet s k r) k = some r := by
  induction s with
  | nil => simp [storeSet, storeGet]
  | cons hd tl ih =>
      obtain ⟨k', r'⟩ := hd
      by_cases h : k' = k
      · simp [storeSet, h, storeGet]
      · simp [storeSet, h, storeGet, ih]

theorem storeGet_storeSet_ne (s : Store) (k k' : String) (r : RateLimitRecord)
    (h : k' ≠ k) : storeGet (storeSet s k r) k' = storeGet s k' := by
  induction s with
  | nil => simp [storeSet, storeGet, Ne.symm h]
  | cons hd tl ih =>
      obtain ⟨k₀, r₀⟩ := hd
      by_cases h₀ : k₀ = k
      · subst h₀
        simp [storeSet, storeGet, Ne.symm h]
      · simp only [storeSet, if_neg h₀]
        by_cases h₁ : k₀ = k'
        · simp [storeGet, h₁]
        · simp [storeGet, h₁, ih]

theorem storeGet_storeDelete_self (s : Store) (k : String) :
    storeGet (storeDelete s k) k = none := by
  induction s with
  | nil => simp [storeDelete, storeGet]
  | cons hd tl ih =>
      obtain ⟨k', r'⟩ := hd
      by_cases h : k' = k
      · simp [storeDelete, h, ih]
      · simp [storeDelete, h, storeGet, ih]

theorem storeDelete_of_absent (s : Store) (k : String)
    (h : storeGet s k = none) : storeDelete s k = s := by
  induction s with
  | nil => simp [storeDelete]
  | cons hd tl ih =>
      obtain ⟨k', r'⟩ := hd
      by_cases hk : k' = k
      · simp [storeGet, hk] at h
      · simp only [storeGet, if_neg hk] at h
        simp [storeDelete, hk, ih h]

theorem storeGet_mem {s : Store} {k : String} {r : RateLimitRecord}
    (h : storeGet s k = some r) : (k, r) ∈ s := by
  induction s with
  | nil => simp [storeGet] at h
  | cons hd tl ih =>
      obtain ⟨k', r'⟩ := hd
      by_cases hk : k' = k
      · simp only [storeGet, if_pos hk] at h
        subst hk
        cases h
        exact List.mem_cons_self _ _
      · simp only [storeGet, if_neg hk] at h
        exact List.mem_cons_of_mem _ (ih h)

theorem mem_storeSet {s : Store} {k : String} {r : RateLimitRecord}
    {x : String × RateLimitRecord} (h : x ∈ storeSet s k r) :
    x = (k, r) ∨ x ∈ s := by
  induction s with
  | nil => simpa [storeSet] using h
  | cons hd tl ih =>
      obtain ⟨k', r'⟩ := hd
      by_cases hk : k' = k
      · simp only [storeSet, if_pos hk] at h
        rcases List.mem_cons.mp h with h | h
        · exact Or.inl h
        · exact Or.inr (List.mem_cons_of_mem _ h)
      · simp only [storeSet, if_neg hk] at h
        rcases List.mem_cons.mp h with h | h
        · exact Or.inr (h ▸ List.mem_cons_self _ _)
        · rcases ih h with h | h
          · exact Or.inl h
          · exact Or.inr (List.mem_cons_of_mem _ h)

/-! ### Lemmas about the sweep -/

theorem storeGet_sweep_none {s : Store} {k : String} (now : Int)
    (h : storeGet s k = none) : storeGet (sweep now s) k = none := by
  induction s with
  | nil => simp [sweep, storeGet]
  | cons hd tl ih =>
      obtain ⟨k', r'⟩ := hd
      by_cases hk : k' = k
      · simp [storeGet, hk] at h
      · simp only [storeGet, if_neg hk] at h
        by_cases hp : r'.resetTime < now
        · simpa [sweep, List.filter, hp] using ih h
        · have := ih h
          simp only [sweep, List.filter, hp] at this ⊢
          simpa [storeGet, hk] using this

theorem storeGet_sweep_live {s : Store} {k : String} {r : RateLimitRecord}
    (now : Int) (h : storeGet s k = some r) (hlive : ¬ r.resetTime < now) :
    storeGet (sweep now s) k = some r := by
  induction s with
  | nil => simp [storeGet] at h
  | cons hd tl ih =>
      obtain ⟨k', r'⟩ := hd
      by_cases hk : k' = k
      · simp only [storeGet, if_pos hk] at h
        cases h
        subst hk
        simp [sweep, List.filter, hlive, storeGet]
      · simp only [storeGet, if_neg hk] at h
        by_cases hp : r'.resetTime < now
        · simpa [sweep, List.filter, hp] using ih h
        · have := ih h
          simp only [sweep, List.filter, hp] at this ⊢
          simpa [storeGet, hk] using this

theorem mem_sweep {s : Store} {now : Int} {x : String × RateLimitRecord}
    (h : x ∈ sweep now s) : x ∈ s ∧ ¬ x.2.resetTime < now := by
  have := List.mem_filter.mp h
  refine ⟨this.1, ?_⟩
  have h2 := this.2
  simpa using h2

theorem storeGet_of_not_mem_keys {s : Store} {k : String}
    (h : k ∉ s.map Prod.fst) : storeGet s k = none := by
  induction s with
  | nil => simp [storeGet]
  | cons hd tl ih =>
      obtain ⟨k', r'⟩ := hd
      simp only [List.map_cons, List.mem_cons, not_or] at h
      simp [storeGet, Ne.symm h.1, ih h.2]

theorem storeGet_sweep_stale {s : Store} {k : String} {r : RateLimitRecord}
    (now : Int) (hnd : (s.map Prod.fst).Nodup) (h : storeGet s k = some r)
    (hstale : r.resetTime < now) : storeGet (sweep now s) k = none := by
  induction s with
  | nil => simp [storeGet] at h
  | cons hd tl ih =>
      obtain ⟨k', r'⟩ := hd
      simp only [List.map_cons, List.nodup_cons] at hnd
      by_cases hk : k' = k
      · subst hk
        have hr : r' = r := by simpa [storeGet] using h
        subst hr
        simp only [sweep, List.filter, hstale, decide_True, Bool.not_true]
        exact storeGet_sweep_none now (storeGet_of_not_mem_keys hnd.1)
      · simp only [storeGet, if_neg hk] at h
        by_cases hp : r'.resetTime < now
        · simpa [sweep, List.filter, hp] using ih hnd.2 h
        · have := ih hnd.2 h
          simp only [sweep, List.filter, hp] at this ⊢
          simpa [storeGet, hk] using this

theorem nodup_keys_sweep {s : Store} (now : Int)
    (h : (s.map Prod.fst).Nodup) : ((sweep now s).map Prod.fst).Nodup := by
  have hsub : List.Sublist ((sweep now s).map Prod.fst) (s.map Prod.fst) :=
    (List.filter_sublist s).map Prod.fst
  exact h.sublist hsub

theorem mem_keys_storeSet {s : Store} {k x : String} {r : RateLimitRecord}
    (h : x ∈ (storeSet s k r).map Prod.fst) :
    x = k ∨ x ∈ s.map Prod.fst := by
  rcases List.mem_map.mp h with ⟨kr, hmem, hx⟩
  rcases mem_storeSet hmem with h1 | h1
  · left
    rw [← hx, h1]
  · right
    exact hx ▸ List.mem_map_of_mem Prod.fst h1

theorem nodup_keys_storeSet {s : Store} (k : String) (r : RateLimitRecord)
    (h : (s.map Prod.fst).Nodup) :
    ((storeSet s k r).map Prod.fst).Nodup := by
  induction s with
  | nil => simp [storeSet]
  | cons hd tl ih =>
      obtain ⟨k', r'⟩ := hd
      simp only [List.map_cons, List.nodup_cons] at h
      by_cases hk : k' = k
      · subst hk
        simpa [storeSet, List.nodup_cons] using h
      · simp only [storeSet, if_neg hk, List.map_cons, List.nodup_cons]
        refine ⟨fun hmem => ?_, ih h.2⟩
        rcases mem_keys_storeSet hmem with h1 | h1
        · exact hk h1
        · exact h.1 h1

/-! ### Case laws for `isRateLimited` -/

theorem isRateLimited_absent (rl : RateLimiter) (now : Int) (id : String)
    (h : storeGet rl.store id = none) :
    isRateLimited rl now id =
      (false, { rl with
        store := storeSet (sweep now rl.store) id ⟨1, now + rl.windowMs⟩ }) := by
  simp [isRateLimited, cleanup, storeGet_sweep_none now h]

theorem isRateLimited_stale (rl : RateLimiter) (now : Int) (id : String)
    (r : RateLimitRecord) (hnd : (rl.store.map Prod.fst).Nodup)
    (h : storeGet rl.store id = some r) (hstale : r.resetTime < now) :
    isRateLimited rl now id =
      (false, { rl with
        store := storeSet (sweep now rl.store) id ⟨1, now + rl.windowMs⟩ }) := by
  simp [isRateLimited, cleanup, storeGet_sweep_stale now hnd h hstale]

theorem isRateLimited_deny (rl : RateLimiter) (now : Int) (id : String)
    (r : RateLimitRecord) (h : storeGet rl.store id = some r)
    (hlive : ¬ r.resetTime < now) (hfull : rl.maxRequests ≤ r.count) :
    isRateLimited rl now id =
      (true, { rl with store := sweep now rl.store }) := by
  simp [isRateLimited, cleanup, storeGet_sweep_live now h hlive, hlive, hfull]

theorem isRateLimited_incr (rl : RateLimiter) (now : Int) (id : String)
    (r : RateLimitRecord) (h : storeGet rl.store id = some r)
    (hlive : ¬ r.resetTime < now) (hroom : ¬ rl.maxRequests ≤ r.count) :
    isRateLimited rl now id =
      (false, { rl with
        store := storeSet (sweep now rl.store) id
          ⟨r.count + 1, r.resetTime⟩ }) := by
  simp [isRateLimited, cleanup, storeGet_sweep_live now h hlive, hlive, hroom]

theorem isRateLimited_state_shape (rl : RateLimiter) (now : Int)
    (id : String) :
    ∃ s : Store, (isRateLimited rl now id).2 = { rl with store := s } := by
  simp only [isRateLimited, cleanup]
  cases storeGet (sweep now rl.store) id with
  | none => exact ⟨_, rfl⟩
  | some r =>
      by_cases h1 : r.resetTime < now
      · simp only [if_pos h1]
        exact ⟨_, rfl⟩
      · by_cases h2 : rl.maxRequests ≤ r.count
        · simp only [if_neg h1, if_pos h2]
          exact ⟨_, rfl⟩
        · simp only [if_neg h1, if_neg h2]
          exact ⟨_, rfl⟩

theorem isRateLimited_windowMs (rl : RateLimiter) (now : Int) (id : String) :
    (isRateLimited rl now id).2.windowMs = rl.windowMs := by
  obtain ⟨s, hs⟩ := isRateLimited_state_shape rl now id
  rw [hs]

theorem isRateLimited_maxRequests (rl : RateLimiter) (now : Int)
    (id : String) :
    (isRateLimited rl now id).2.maxRequests = rl.maxRequests := by
  obtain ⟨s, hs⟩ := isRateLimited_state_shape rl now id
  rw [hs]

/-! ### Lemmas about call sequences -/

theorem runCalls_append (rl : RateLimiter) (id : String) (ts us : List Int) :
    runCalls rl id (ts ++ us) =
      ((runCalls rl id ts).1 ++ (runCalls (runCalls rl id ts).2 id us).1,
        (runCalls (runCalls rl id ts).2 id us).2) := by
  induction ts generalizing rl with
  | nil => simp [runCalls]
  | cons t ts ih => simp [runCalls, ih]

theorem runCalls_length (rl : RateLimiter) (id : String) (ts : List Int) :
    (runCalls rl id ts).1.length = ts.length := by
  induction ts generalizing rl with
  | nil => simp [runCalls]
  | cons t ts ih => simp [runCalls, ih]

theorem runCalls_in_window (id : String) (ts : List Int) :
    ∀ (rl : RateLimiter) (c R : Int),
      storeGet rl.store id = some ⟨c, R⟩ →
      (∀ t ∈ ts, t ≤ R) →
      c + ts.length ≤ rl.maxRequests →
      (runCalls rl id ts).1 = List.replicate ts.length false ∧
      storeGet (runCalls rl id ts).2.store id = some ⟨c + ts.length, R⟩ ∧
      (runCalls rl id ts).2.windowMs = rl.windowMs ∧
      (runCalls rl id ts).2.maxRequests = rl.maxRequests := by
  induction ts with
  | nil =>
      intro rl c R h _ _
      simpa [runCalls] using h
  | cons t ts ih =>
      intro rl c R h hts hcount
      have hlive : ¬ (⟨c, R⟩ : RateLimitRecord).resetTime < t := by
        have := hts t (List.mem_cons_self _ _)
        simp only [not_lt]
        exact this
      have hroom : ¬ rl.maxRequests ≤ (⟨c, R⟩ : RateLimitRecord).count := by
        simp only [not_le]
        have : (ts.length : Int) + 1 = ((t :: ts).length : Int) := by
          simp
        omega
      have hstep := isRateLimited_incr rl t id ⟨c, R⟩ h hlive hroom
      set rl1 : RateLimiter :=
        { rl with store := storeSet (sweep t rl.store) id ⟨c + 1, R⟩ } with hrl1
      have hget1 : storeGet rl1.store id = some ⟨c + 1, R⟩ :=
        storeGet_storeSet_self _ _ _
      have hts1 : ∀ u ∈ ts, u ≤ R := fun u hu => hts u (List.mem_cons_of_mem _ hu)
      have hcount1 : c + 1 + ts.length ≤ rl1.maxRequests := by
        have : rl1.maxRequests = rl.maxRequests := rfl
        rw [this]
        have : ((t :: ts).length : Int) = (ts.length : Int) + 1 := by simp
        omega
      obtain ⟨hres, hrec, hw, hm⟩ := ih rl1 (c + 1) R hget1 hts1 hcount1
      refine ⟨?_, ?_, ?_, ?_⟩
      · simp [runCalls, hstep, hres, List.replicate_succ]
      · have : c + 1 + (ts.length : Int) = c + ((t :: ts).length : Int) := by
          simp
          omega
        simp only [runCalls, hstep]
        rw [hrec, ← this]
      · simp only [runCalls, hstep]
        exact hw
      · simp only [runCalls, hstep]
        exact hm

/-- C1: starting from any state in which the identifier has no record, on a
limiter with `maxRequests = m ≥ 1`, a run of `m + 1` calls whose times never
exceed the first call's `resetTime` (`t0 + windowMs`) is admitted exactly `m`
times and then denied: the decisions are `m` times `false` followed by
`true`. -/
theorem c1_first_maxRequests_admitted_then_denied
    (rl : RateLimiter) (id : String) (m : Nat) (t0 tlast : Int)
    (ts : List Int) (hm : rl.maxRequests = (m : Int)) (hm1 : 1 ≤ m)
    (habsent : storeGet rl.store id = none) (hlen : ts.length = m - 1)
    (hts : ∀ t ∈ ts, t ≤ t0 + rl.windowMs)
    (hlast : tlast ≤ t0 + rl.windowMs) :
    (runCalls rl id (t0 :: (ts ++ [tlast]))).1 =
      List.replicate m false ++ [true] := by
  have hstep0 := isRateLimited_absent rl t0 id habsent
  set rl1 : RateLimiter :=
    { rl with store := storeSet (sweep t0 rl.store) id ⟨1, t0 + rl.windowMs⟩ }
    with hrl1
  have hget1 : storeGet rl1.store id = some ⟨1, t0 + rl.windowMs⟩ :=
    storeGet_storeSet_self _ _ _
  have hcount1 : (1 : Int) + ts.length ≤ rl1.maxRequests := by
    have h1 : rl1.maxRequests = (m : Int) := hm
    rw [h1, hlen]
    omega
  obtain ⟨hres, hrec, hw, hmx⟩ :=
    runCalls_in_window id ts rl1 1 (t0 + rl.windowMs) hget1 hts hcount1
  set rl2 : RateLimiter := (runCalls rl1 id ts).2 with hrl2
  have hfull : rl2.maxRequests ≤
      (⟨1 + (ts.length : Int), t0 + rl.windowMs⟩ : RateLimitRecord).count := by
    rw [hmx, hm, hlen]
    simp only
    omega
  have hlive : ¬ (⟨1 + (ts.length : Int), t0 + rl.windowMs⟩ :
      RateLimitRecord).resetTime < tlast := by
    simp only [not_lt]
    exact hlast
  have hstepL := isRateLimited_deny rl2 tlast id _ hrec hlive hfull
  have hlastrun : (runCalls rl2 id [tlast]).1 = [true] := by
    simp [runCalls, hstepL]
  calc (runCalls rl id (t0 :: (ts ++ [tlast]))).1
      = false :: (runCalls rl1 id (ts ++ [tlast])).1 := by
        simp [runCalls, hstep0]
    _ = false :: ((runCalls rl1 id ts).1 ++ (runCalls rl2 id [tlast]).1) := by
        rw [runCalls_append]
    _ = false :: (List.replicate (m - 1) false ++ [true]) := by
        rw [hres, hlastrun, hlen]
    _ = List.replicate m false ++ [true] := by
        have : m = (m - 1) + 1 := by omega
        rw [this]
        simp [List.replicate_succ]

/-- C1 witness: with `windowMs = 1000`, `maxRequests = 2` and calls for a
fresh identifier at times 0, 10 and 20, the decisions are
`[false, false, true]`. -/
theorem c1_first_maxRequests_admitted_then_denied_witness :
    (runCalls (mkRateLimiter 1000 2) "ip" [0, 10, 20]).1 =
      List.replicate 2 false ++ [true] :=
  c1_first_maxRequests_admitted_then_denied (mkRateLimiter 1000 2) "ip" 2
    0 20 [10] rfl (by decide) rfl rfl
    (by
      intro t ht
      simp only [List.mem_singleton] at ht
      subst ht
      decide)
    (by decide)

/-- A limiter with `windowMs = 1000`, `maxRequests = 1` after one admitted
call for `"x"` at time 0; its record is `{count := 1, resetTime := 1000}`. -/
def exhaustedAtZero : RateLimiter :=
  (isRateLimited (mkRateLimiter 1000 1) 0 "x").2

/-- C2 counterexample: at current time 1000 — exactly the record's
`resetTime`, i.e. exactly `windowMs` after the call that created the
window — the next call for an exhausted identifier returns `true`, not
`false`: the code resets the window only when `now` strictly exceeds
`resetTime`. -/
theorem c2_counterexample :
    storeGet exhaustedAtZero.store "x" = some ⟨1, 1000⟩ ∧
    (isRateLimited exhaustedAtZero 1000 "x").1 = true := by
  constructor <;> rfl

/-- C2 (amended): for every identifier whose record exists, once the current
time strictly exceeds the record's `resetTime`, the next `isRateLimited`
call returns `false` regardless of the record's count, and writes a fresh
record `{count := 1, resetTime := now + windowMs}` anchored at that call's
time. -/
theorem c2_window_reset_after_expiry
    (rl : RateLimiter) (now : Int) (id : String) (r : RateLimitRecord)
    (hnd : (rl.store.map Prod.fst).Nodup)
    (h : storeGet rl.store id = some r) (hexp : r.resetTime < now) :
    (isRateLimited rl now id).1 = false ∧
    storeGet (isRateLimited rl now id).2.store id =
      some ⟨1, now + rl.windowMs⟩ := by
  rw [isRateLimited_stale rl now id r hnd h hexp]
  exact ⟨rfl, storeGet_storeSet_self _ _ _⟩

/-- C2 witness: a limiter with one record `{count := 5, resetTime := 10}`
for `"x"`, queried at time 11, admits and re-anchors the window. -/
theorem c2_window_reset_after_expiry_witness :
    (isRateLimited ⟨[("x", ⟨5, 10⟩)], 1000, 1⟩ 11 "x").1 = false ∧
    storeGet (isRateLimited ⟨[("x", ⟨5, 10⟩)], 1000, 1⟩ 11 "x").2.store "x" =
      some ⟨1, 1011⟩ :=
  c2_window_reset_after_expiry ⟨[("x", ⟨5, 10⟩)], 1000, 1⟩ 11 "x" ⟨5, 10⟩
    (by decide) (by decide) (by decide)

/-- C3: a denied call leaves the queried identifier's record untouched:
when the record is live (`now ≤ resetTime`) and `count ≥ maxRequests`,
`isRateLimited` returns `true` and the record keeps both its `count` and
its `resetTime`. -/
theorem c3_denied_call_leaves_record_unchanged
    (rl : RateLimiter) (now : Int) (id : String) (r : RateLimitRecord)
    (h : storeGet rl.store id = some r) (hlive : now ≤ r.resetTime)
    (hfull : rl.maxRequests ≤ r.count) :
    (isRateLimited rl now id).1 = true ∧
    storeGet (isRateLimited rl now id).2.store id = some r := by
  have hlive' : ¬ r.resetTime < now := not_lt.mpr hlive
  rw [isRateLimited_deny rl now id r h hlive' hfull]
  exact ⟨rfl, storeGet_sweep_live now h hlive'⟩

/-- C3 witness: a full live record `{count := 3, resetTime := 100}` with
`maxRequests = 3`, queried at time 50, is denied and unchanged. -/
theorem c3_denied_call_leaves_record_unchanged_witness :
    (isRateLimited ⟨[("a", ⟨3, 100⟩)], 1000, 3⟩ 50 "a").1 = true ∧
    storeGet (isRateLimited ⟨[("a", ⟨3, 100⟩)], 1000, 3⟩ 50 "a").2.store "a" =
      some ⟨3, 100⟩ :=
  c3_denied_call_leaves_record_unchanged ⟨[("a", ⟨3, 100⟩)], 1000, 3⟩ 50 "a"
    ⟨3, 100⟩ (by decide) (by decide) (by decide)

/-- C4 counterexample: `getCount` performs no staleness check.  In the
state `exhaustedAtZero` the record for `"x"` is `{count := 1,
resetTime := 1000}`; at current time 2000 the record is stale
(`1000 < 2000`), yet `getCount` returns the stored count 1, not 0. -/
theorem c4_counterexample :
    storeGet exhaustedAtZero.store "x" = some ⟨1, 1000⟩ ∧
    (1000 : Int) < 2000 ∧ getCount exhaustedAtZero "x" = 1 := by
  refine ⟨rfl, by decide, rfl⟩

/-- C4 (amended): `getCount` never mutates the limiter state (in this
embedding it is a pure function of the state), returns 0 for an identifier
with no record, and otherwise returns the stored record's `count` as is —
even when the record is stale, since the code applies no staleness check
on reads. -/
theorem c4_getCount_reads_stored_count (rl : RateLimiter) (id : String) :
    (storeGet rl.store id = none → getCount rl id = 0) ∧
    (∀ r, storeGet rl.store id = some r → getCount rl id = r.count) := by
  constructor
  · intro h
    simp [getCount, h]
  · intro r h
    simp [getCount, h]

/-- C4 witness: on an empty limiter `getCount` is 0, and on a limiter with
a (stale) record the stored count is returned. -/
theorem c4_getCount_reads_stored_count_witness :
    getCount (mkRateLimiter 1000 1) "y" = 0 ∧
    getCount (⟨[("x", ⟨7, 10⟩)], 1000, 1⟩ : RateLimiter) "x" = 7 :=
  ⟨(c4_getCount_reads_stored_count (mkRateLimiter 1000 1) "y").1 rfl,
    (c4_getCount_reads_stored_count ⟨[("x", ⟨7, 10⟩)], 1000, 1⟩ "x").2
      ⟨7, 10⟩ rfl⟩

/-! ### The count-bounds invariant over reachable states -/

theorem mem_storeDelete {s : Store} {k : String}
    {x : String × RateLimitRecord} (h : x ∈ storeDelete s k) : x ∈ s := by
  induction s with
  | nil => simp [storeDelete] at h
  | cons hd tl ih =>
      obtain ⟨k', r'⟩ := hd
      by_cases hk : k' = k
      · simp only [storeDelete, if_pos hk] at h
        exact List.mem_cons_of_mem _ (ih h)
      · simp only [storeDelete, if_neg hk] at h
        rcases List.mem_cons.mp h with h | h
        · exact h ▸ List.mem_cons_self _ _
        · exact List.mem_cons_of_mem _ (ih h)

theorem mem_isRateLimited_store {rl : RateLimiter} {now : Int} {id : String}
    {kr : String × RateLimitRecord}
    (h : kr ∈ (isRateLimited rl now id).2.store) :
    kr ∈ sweep now rl.store ∨ kr.2 = ⟨1, now + rl.windowMs⟩ ∨
    ∃ r : RateLimitRecord, (id, r) ∈ sweep now rl.store ∧
      ¬ rl.maxRequests ≤ r.count ∧ kr.2 = ⟨r.count + 1, r.resetTime⟩ := by
  simp only [isRateLimited, cleanup] at h
  rcases hg : storeGet (sweep now rl.store) id with _ | r
  · simp only [hg] at h
    rcases mem_storeSet h with h1 | h1
    · right
      left
      rw [h1]
    · exact Or.inl h1
  · simp only [hg] at h
    by_cases h1 : r.resetTime < now
    · simp only [if_pos h1] at h
      rcases mem_storeSet h with h2 | h2
      · right
        left
        rw [h2]
      · exact Or.inl h2
    · by_cases h2 : rl.maxRequests ≤ r.count
      · simp only [if_neg h1, if_pos h2] at h
        exact Or.inl h
      · simp only [if_neg h1, if_neg h2] at h
        rcases mem_storeSet h with h3 | h3
        · exact Or.inr (Or.inr ⟨r, storeGet_mem hg, h2, by rw [h3]⟩)
        · exact Or.inl h3

/-- Every record in the store has `1 ≤ count ≤ m`, where `m` is the
limiter's `maxRequests`. -/
def CountBounds (m : Int) (rl : RateLimiter) : Prop :=
  rl.maxRequests = m ∧
  ∀ kr ∈ rl.store, 1 ≤ kr.2.count ∧ kr.2.count ≤ m

theorem countBounds_applyOp {m : Int} (hm : 1 ≤ m) {rl : RateLimiter}
    (h : CountBounds m rl) (op : Op) : CountBounds m (applyOp rl op) := by
  obtain ⟨hmax, hrec⟩ := h
  cases op with
  | limited now id =>
      refine ⟨hmax ▸ isRateLimited_maxRequests rl now id, ?_⟩
      intro kr hkr
      rcases mem_isRateLimited_store hkr with h1 | h1 | ⟨r, hr, hroom, hkr2⟩
      · exact hrec _ (mem_sweep h1).1
      · rw [h1]
        exact ⟨le_refl 1, hm⟩
      · rw [hkr2]
        have hb : 1 ≤ r.count ∧ r.count ≤ m := hrec (id, r) (mem_sweep hr).1
        rw [hmax] at hroom
        simp only
        omega
  | countOf id => exact ⟨hmax, hrec⟩
  | resetOp id =>
      refine ⟨hmax, fun kr hkr => hrec _ (mem_storeDelete hkr)⟩
  | clearOp =>
      refine ⟨hmax, fun kr hkr => absurd hkr (List.not_mem_nil kr)⟩
  | cleanupOp now =>
      refine ⟨hmax, fun kr hkr => hrec _ (mem_sweep hkr).1⟩

theorem countBounds_runOps {m : Int} (hm : 1 ≤ m) (ops : List Op) :
    ∀ rl : RateLimiter, CountBounds m rl →
      CountBounds m (runOps rl ops) := by
  induction ops with
  | nil => intro rl h; exact h
  | cons op ops ih =>
      intro rl h
      exact ih _ (countBounds_applyOp hm h op)

/-- C5: on a limiter constructed with `maxRequests = m ≥ 1`, after any
sequence of public operations, every record present in the mapping has
`count ≥ 1`, and every live record (current time ≤ its `resetTime`) has
`count ≤ maxRequests`. -/
theorem c5_count_bounds_reachable (w : Int) (m : Nat) (hm : 1 ≤ m)
    (ops : List Op) (k : String) (r : RateLimitRecord)
    (hget : storeGet (runOps (mkRateLimiter w (m : Int)) ops).store k
      = some r) :
    1 ≤ r.count ∧ ∀ now : Int, now ≤ r.resetTime → r.count ≤ (m : Int) := by
  have hm' : (1 : Int) ≤ (m : Int) := by exact_mod_cast hm
  have hinv : CountBounds (m : Int) (runOps (mkRateLimiter w (m : Int)) ops) :=
    countBounds_runOps hm' ops _ ⟨rfl, fun kr hkr => absurd hkr (by simp [mkRateLimiter])⟩
  have hb := hinv.2 _ (storeGet_mem hget)
  exact ⟨hb.1, fun now _ => hb.2⟩

/-- C5 witness: after one admitted call on a fresh default-like limiter the
record for the identifier is `{count := 1, resetTime := 60000}` and it
satisfies the bounds. -/
theorem c5_count_bounds_reachable_witness :
    storeGet (runOps (mkRateLimiter 60000 (100 : Int))
        [Op.limited 0 "a"]).store "a" = some ⟨1, 60000⟩ ∧
    (1 : Int) ≤ 1 ∧ (1 : Int) ≤ (100 : Nat) := by
  have h : storeGet (runOps (mkRateLimiter 60000 ((100 : Nat) : Int))
      [Op.limited 0 "a"]).store "a" = some ⟨1, 60000⟩ := by decide
  have hc := c5_count_bounds_reachable 60000 100 (by decide) [Op.limited 0 "a"]
    "a" ⟨1, 60000⟩ h
  exact ⟨h, hc.1, hc.2 0 (by decide)⟩

/-- C6: the opening cleanup sweep never changes the admit/deny decision nor
the queried identifier's count: on any state with unique keys and at any
fixed current time, `isRateLimited` returns the same boolean, and leaves the
queried identifier with the same `getCount`, as the variant that omits the
sweep. -/
theorem c6_cleanup_preserves_decision (rl : RateLimiter) (now : Int)
    (id : String) (hnd : (rl.store.map Prod.fst).Nodup) :
    (isRateLimited rl now id).1 = (isRateLimitedNoCleanup rl now id).1 ∧
    getCount (isRateLimited rl now id).2 id =
      getCount (isRateLimitedNoCleanup rl now id).2 id := by
  rcases hg : storeGet rl.store id with _ | r
  · rw [isRateLimited_absent rl now id hg]
    simp only [isRateLimitedNoCleanup, hg]
    exact ⟨by simp, by simp [getCount, storeGet_storeSet_self]⟩
  · by_cases h1 : r.resetTime < now
    · rw [isRateLimited_stale rl now id r hnd hg h1]
      simp only [isRateLimitedNoCleanup, hg, if_pos h1]
      exact ⟨by simp, by simp [getCount, storeGet_storeSet_self]⟩
    · by_cases h2 : rl.maxRequests ≤ r.count
      · rw [isRateLimited_deny rl now id r hg h1 h2]
        simp only [isRateLimitedNoCleanup, hg, if_neg h1, if_pos h2]
        refine ⟨by simp, ?_⟩
        simp only [getCount]
        rw [show storeGet ({ rl with store := sweep now rl.store } :
          RateLimiter).store id = some r from storeGet_sweep_live now hg h1, hg]
      · rw [isRateLimited_incr rl now id r hg h1 h2]
        simp only [isRateLimitedNoCleanup, hg, if_neg h1, if_neg h2]
        exact ⟨by simp, by simp [getCount, storeGet_storeSet_self]⟩

/-- C6 witness: a concrete state with one live record gives the same
decision and the same post-call count with and without the sweep. -/
theorem c6_cleanup_preserves_decision_witness :
    (isRateLimited ⟨[("x", ⟨1, 10⟩)], 1000, 2⟩ 5 "x").1 =
      (isRateLimitedNoCleanup ⟨[("x", ⟨1, 10⟩)], 1000, 2⟩ 5 "x").1 ∧
    getCount (isRateLimited ⟨[("x", ⟨1, 10⟩)], 1000, 2⟩ 5 "x").2 "x" =
      getCount (isRateLimitedNoCleanup ⟨[("x", ⟨1, 10⟩)], 1000, 2⟩ 5 "x").2
        "x" :=
  c6_cleanup_preserves_decision ⟨[("x", ⟨1, 10⟩)], 1000, 2⟩ 5 "x" (by decide)

/-- C7: `reset(id)` deletes the identifier's record (a no-op when absent),
so `getCount` returns 0 and the next call is admitted even right after
exhaustion; `clear()` empties the store, so `getCount` returns 0 for every
identifier. -/
theorem c7_reset_and_clear (rl : RateLimiter) (id : String) (now : Int) :
    getCount (reset rl id) id = 0 ∧
    (isRateLimited (reset rl id) now id).1 = false ∧
    (storeGet rl.store id = none → reset rl id = rl) ∧
    (∀ k, getCount (clear rl) k = 0) := by
  refine ⟨?_, ?_, ?_, ?_⟩
  · simp [getCount, reset, storeGet_storeDelete_self]
  · have habs : storeGet (reset rl id).store id = none :=
      storeGet_storeDelete_self _ _
    rw [isRateLimited_absent _ now id habs]
  · intro h
    simp [reset, storeDelete_of_absent rl.store id h]
  · intro k
    simp [getCount, clear, storeGet]

/-- C7 witness: on a limiter whose identifier `"a"` is exhausted
(`count = 3 = maxRequests`), `reset` restores the count to 0 and the next
call is admitted; `reset` of an absent identifier is a no-op; `clear`
restores the count of `"a"` to 0. -/
theorem c7_reset_and_clear_witness :
    getCount (reset ⟨[("a", ⟨3, 100⟩)], 1000, 3⟩ "a") "a" = 0 ∧
    (isRateLimited (reset ⟨[("a", ⟨3, 100⟩)], 1000, 3⟩ "a") 50 "a").1 =
      false ∧
    reset (mkRateLimiter 1000 3) "b" = mkRateLimiter 1000 3 ∧
    getCount (clear ⟨[("a", ⟨3, 100⟩)], 1000, 3⟩) "a" = 0 :=
  ⟨(c7_reset_and_clear ⟨[("a", ⟨3, 100⟩)], 1000, 3⟩ "a" 50).1,
    (c7_reset_and_clear ⟨[("a", ⟨3, 100⟩)], 1000, 3⟩ "a" 50).2.1,
    (c7_reset_and_clear (mkRateLimiter 1000 3) "b" 0).2.2.1 rfl,
    (c7_reset_and_clear ⟨[("a", ⟨3, 100⟩)], 1000, 3⟩ "a" 50).2.2.2 "a"⟩

/-! ### Independence of distinct identifiers -/

/-- The record the admission decision actually consults for an identifier:
the stored record, with a stale one (`resetTime < now`) treated as absent. -/
def effectiveRecord (rl : RateLimiter) (now : Int) (id : String) :
    Option RateLimitRecord :=
  match storeGet rl.store id with
  | none => none
  | some r => if r.resetTime < now then none else some r

/-- The admit/deny decision as a function of the effective record. -/
def decisionOf (m : Int) : Option RateLimitRecord → Bool
  | none => false
  | some r => decide (m ≤ r.count)

theorem isRateLimited_fst_eq (rl : RateLimiter) (now : Int) (id : String)
    (hnd : (rl.store.map Prod.fst).Nodup) :
    (isRateLimited rl now id).1 =
      decisionOf rl.maxRequests (effectiveRecord rl now id) := by
  rcases hg : storeGet rl.store id with _ | r
  · rw [isRateLimited_absent rl now id hg]
    simp [effectiveRecord, hg, decisionOf]
  · by_cases h1 : r.resetTime < now
    · rw [isRateLimited_stale rl now id r hnd hg h1]
      simp [effectiveRecord, hg, h1, decisionOf]
    · by_cases h2 : rl.maxRequests ≤ r.count
      · rw [isRateLimited_deny rl now id r hg h1 h2]
        simp [effectiveRecord, hg, h1, h2, decisionOf]
      · rw [isRateLimited_incr rl now id r hg h1 h2]
        simp [effectiveRecord, hg, h1, h2, decisionOf]

theorem nodup_keys_isRateLimited (rl : RateLimiter) (now : Int) (id : String)
    (hnd : (rl.store.map Prod.fst).Nodup) :
    ((isRateLimited rl now id).2.store.map Prod.fst).Nodup := by
  simp only [isRateLimited, cleanup]
  rcases hg : storeGet (sweep now rl.store) id with _ | r
  · simp only [hg]
    exact nodup_keys_storeSet _ _ (nodup_keys_sweep now hnd)
  · simp only [hg]
    by_cases h1 : r.resetTime < now
    · simp only [if_pos h1]
      exact nodup_keys_storeSet _ _ (nodup_keys_sweep now hnd)
    · by_cases h2 : rl.maxRequests ≤ r.count
      · simp only [if_neg h1, if_pos h2]
        exact nodup_keys_sweep now hnd
      · simp only [if_neg h1, if_neg h2]
        exact nodup_keys_storeSet _ _ (nodup_keys_sweep now hnd)

theorem effectiveRecord_isRateLimited_other (rl : RateLimiter)
    (ta nowb : Int) (a b : String) (hab : a ≠ b) (hta : ta ≤ nowb)
    (hnd : (rl.store.map Prod.fst).Nodup) :
    effectiveRecord (isRateLimited rl ta a).2 nowb b =
      effectiveRecord rl nowb b := by
  have hget : storeGet (isRateLimited rl ta a).2.store b =
      storeGet (sweep ta rl.store) b := by
    simp only [isRateLimited, cleanup]
    rcases hg : storeGet (sweep ta rl.store) a with _ | r
    · simp only [hg]
      exact storeGet_storeSet_ne _ _ _ _ (Ne.symm hab)
    · simp only [hg]
      by_cases h1 : r.resetTime < ta
      · simp only [if_pos h1]
        exact storeGet_storeSet_ne _ _ _ _ (Ne.symm hab)
      · by_cases h2 : rl.maxRequests ≤ r.count
        · simp only [if_neg h1, if_pos h2]
        · simp only [if_neg h1, if_neg h2]
          exact storeGet_storeSet_ne _ _ _ _ (Ne.symm hab)
  rcases hb : storeGet rl.store b with _ | rb
  · simp only [effectiveRecord, hget, storeGet_sweep_none ta hb, hb]
  · by_cases hstale : rb.resetTime < ta
    · have h1 : storeGet (sweep ta rl.store) b = none :=
        storeGet_sweep_stale ta hnd hb hstale
      have h2 : rb.resetTime < nowb := lt_of_lt_of_le hstale hta
      simp only [effectiveRecord, hget, h1, hb, if_pos h2]
    · have h1 : storeGet (sweep ta rl.store) b = some rb :=
        storeGet_sweep_live ta hb hstale
      simp only [effectiveRecord, hget, h1, hb]

theorem afterCalls_preserves_other (a b : String) (hab : a ≠ b)
    (nowb : Int) (ts : List Int) :
    ∀ rl : RateLimiter, (∀ t ∈ ts, t ≤ nowb) →
      (rl.store.map Prod.fst).Nodup →
      effectiveRecord (afterCalls rl a ts) nowb b =
        effectiveRecord rl nowb b ∧
      ((afterCalls rl a ts).store.map Prod.fst).Nodup ∧
      (afterCalls rl a ts).maxRequests = rl.maxRequests := by
  induction ts with
  | nil =>
      intro rl _ hnd
      exact ⟨rfl, hnd, rfl⟩
  | cons t ts ih =>
      intro rl hts hnd
      have hstep : afterCalls rl a (t :: ts) =
          afterCalls (isRateLimited rl t a).2 a ts := rfl
      have hts' : ∀ u ∈ ts, u ≤ nowb :=
        fun u hu => hts u (List.mem_cons_of_mem _ hu)
      have hnd1 := nodup_keys_isRateLimited rl t a hnd
      obtain ⟨ih1, ih2, ih3⟩ := ih (isRateLimited rl t a).2 hts' hnd1
      refine ⟨?_, ?_, ?_⟩
      · rw [hstep, ih1]
        exact effectiveRecord_isRateLimited_other rl t nowb a b hab
          (hts t (List.mem_cons_self _ _)) hnd
      · rw [hstep]
        exact ih2
      · rw [hstep, ih3]
        exact isRateLimited_maxRequests rl t a

/-- C8: distinct identifiers are independent: on any state with unique
keys, any sequence of calls for identifier `a`, all at times no later than
the observation time `nowb`, neither changes the admit/deny outcome of a
subsequent call for a distinct identifier `b` nor the record of `b` while
that record is live at `nowb`. -/
theorem c8_distinct_identifiers_independent (rl : RateLimiter)
    (a b : String) (hab : a ≠ b) (hnd : (rl.store.map Prod.fst).Nodup)
    (ts : List Int) (nowb : Int) (hts : ∀ t ∈ ts, t ≤ nowb) :
    (isRateLimited (afterCalls rl a ts) nowb b).1 =
      (isRateLimited rl nowb b).1 ∧
    ∀ r, storeGet rl.store b = some r → nowb ≤ r.resetTime →
      storeGet (afterCalls rl a ts).store b = some r := by
  obtain ⟨heff, hnd', hmax⟩ :=
    afterCalls_preserves_other a b hab nowb ts rl hts hnd
  constructor
  · rw [isRateLimited_fst_eq _ nowb b hnd', isRateLimited_fst_eq rl nowb b hnd,
      heff, hmax]
  · intro r hr hlive
    have h1 : effectiveRecord rl nowb b = some r := by
      simp [effectiveRecord, hr, not_lt.mpr hlive]
    have h2 := heff.trans h1
    unfold effectiveRecord at h2
    rcases hg : storeGet (afterCalls rl a ts).store b with _ | r'
    · rw [hg] at h2
      simp at h2
    · rw [hg] at h2
      by_cases hst : r'.resetTime < nowb
      · simp [hst] at h2
      · simpa [hst] using h2

/-- C8 witness: exhausting identifier `"a"` (two calls with
`maxRequests = 1`) changes neither the decision for `"b"` at a later time
nor anything `getCount`-visible for `"b"`. -/
theorem c8_distinct_identifiers_independent_witness :
    (isRateLimited (afterCalls (mkRateLimiter 1000 1) "a" [0, 1]) 5 "b").1 =
      (isRateLimited (mkRateLimiter 1000 1) 5 "b").1 :=
  (c8_distinct_identifiers_independent (mkRateLimiter 1000 1) "a" "b"
    (by decide) (by decide) [0, 1] 5
    (by
      intro t ht
      simp only [List.mem_cons, List.not_mem_nil, or_false] at ht
      rcases ht with rfl | rfl <;> decide)).1

/-- C9: every public operation is total: from any configuration — including
a zero or negative `windowMs` — and after any sequence of public
operations, a run of `isRateLimited` calls completes with exactly one
boolean decision per call. -/
theorem c9_operations_total (w m : Int) (ops : List Op) (id : String)
    (ts : List Int) :
    (runCalls (runOps (mkRateLimiter w m) ops) id ts).1.length =
      ts.length :=
  runCalls_length _ id ts

/-- C10: with a nonnegative `windowMs` (the spec constrains construction to
`windowMs > 0`), immediately after any `isRateLimited` call no stale record
remains for any identifier: every record still present has
`resetTime ≥` the time the call observed. -/
theorem c10_no_stale_record_after_call (rl : RateLimiter) (now : Int)
    (id : String) (hw : 0 ≤ rl.windowMs) (k : String) (r : RateLimitRecord)
    (h : storeGet (isRateLimited rl now id).2.store k = some r) :
    now ≤ r.resetTime := by
  have hmem := storeGet_mem h
  rcases mem_isRateLimited_store hmem with h1 | h1 | ⟨r', hr', _, h2⟩
  · have := (mem_sweep h1).2
    simpa [not_lt] using this
  · have hr : r.resetTime = now + rl.windowMs := by
      rw [show r = (k, r).2 from rfl, h1]
    omega
  · have hst : ¬ r'.resetTime < now := (mem_sweep hr').2
    have hr : r.resetTime = r'.resetTime := by
      rw [show r = (k, r).2 from rfl, h2]
    omega

/-- C10 witness: after the first call at time 0 on a fresh limiter with
`windowMs = 1000`, the surviving record for the identifier has
`resetTime = 1000 ≥ 0`. -/
theorem c10_no_stale_record_after_call_witness :
    (0 : Int) ≤ (⟨1, 1000⟩ : RateLimitRecord).resetTime :=
  c10_no_stale_record_after_call (mkRateLimiter 1000 1) 0 "x" (by decide)
    "x" ⟨1, 1000⟩ (by decide)

end RateLimiterModel
